import Mathlib

/-!
Verification of the remote replicator client of a sharded key-range store
(the receive side of a live backfill interleaved with a continuous
replication stream), together with the sibling wait-for-table-readiness
polling loop.

The definitions below are a shallow embedding of the source:
store keys (lexicographically ordered byte strings in the source) are
modelled as naturals, with 0 playing the role of the minimal (empty) key;
state timestamps are naturals; the fractional ack accumulator (a double in
the source) is modelled as a rational.
-/

/-- Right bound of a key range: an exclusive key, or unbounded.
Mirrors the right-bound type used by key ranges in the source. -/
inductive RightBound where
  | key (k : Nat)
  | unbounded
  deriving DecidableEq, Repr

/-- Order on right bounds: every bound is at most `unbounded`. -/
def rbLE : RightBound → RightBound → Bool
  | _, RightBound.unbounded => true
  | RightBound.unbounded, RightBound.key _ => false
  | RightBound.key a, RightBound.key b => a ≤ b

/-- Whether key `k` lies strictly below a right bound. -/
def rbLT (k : Nat) : RightBound → Bool
  | RightBound.unbounded => true
  | RightBound.key r => k < r

/-- Modelled from the spec: a key range has a left bound (inclusive key, with
the minimal key 0 playing the role of -∞) and a right bound (exclusive key
or +∞).  The concrete key-range type is not part of the sources under
verification; only its callers are. -/
structure KeyRange where
  left : Nat
  right : RightBound
  deriving DecidableEq, Repr

/-- Modelled from the spec: the canonical empty key range used by the
constructor when it clears a region field (left and right both at the
minimal key). -/
def KeyRange.emptyRange : KeyRange := ⟨0, RightBound.key 0⟩

/-- Nat membership in a key range. -/
def KeyRange.containsKey (r : KeyRange) (k : Nat) : Bool :=
  decide (r.left ≤ k) && rbLT k r.right

/-- Whether a key range is empty (no key is at or above `left` and strictly
below `right`). -/
def KeyRange.is_empty (r : KeyRange) : Bool :=
  match r.right with
  | RightBound.unbounded => false
  | RightBound.key x => decide (x ≤ r.left)

/-- Modelled from the spec: a region is a (hash-shard-id-range, key-range)
rectangle.  `beg`/`fin` are the source's `beg`/`end` hash bounds
(`end` is a reserved word here). -/
structure Region where
  beg : Nat
  fin : Nat
  inner : KeyRange
  deriving DecidableEq, Repr

/-- Membership of a (hash, key) pair in a region. -/
def Region.containsHK (r : Region) (h : Nat) (k : Nat) : Bool :=
  decide (r.beg ≤ h) && decide (h < r.fin) && r.inner.containsKey k

/-- Modelled from the spec: the canonical empty region. -/
def Region.emptyRegion : Region := ⟨0, 0, KeyRange.emptyRange⟩

/-- Modelled from the spec: a region is empty when it contains no
(hash, key) pair. -/
def region_is_empty (r : Region) : Bool :=
  decide (r.fin ≤ r.beg) || r.inner.is_empty

/-- Replace the key range of a region, keeping its hash bounds. -/
def Region.withInner (r : Region) (i : KeyRange) : Region :=
  { r with inner := i }

/-! ## The backfill-end-timestamp map

Source: `backfill_end_timestamps_t` in
`clustering/immediate_consistency/remote_replicator_client.cc`.
It records, for the just-backfilled region, per-key-prefix timestamps as an
ordered list of `(left_key, timestamp)` steps with a cached maximum. -/

structure backfill_end_timestamps_t where
  region : Region
  max_timestamp : Nat
  steps : List (Nat × Nat)
  deriving DecidableEq, Repr

/-- The scan inside `region_for_timestamp`: walk the steps in order, and at
the first step whose timestamp is `≥ ts` cut the right bound down to that
step's left key; if no step qualifies keep the default (the region's own
right bound). -/
def findStepRight : List (Nat × Nat) → Nat → RightBound → RightBound
  | [], _, dflt => dflt
  | s :: rest, ts, dflt =>
    if ts ≤ s.2 then RightBound.key s.1 else findStepRight rest ts dflt

/-- `region_for_timestamp` returns the region in which it is appropriate to
apply a write with timestamp `ts` (source lines 46-55). -/
def backfill_end_timestamps_t.region_for_timestamp
    (b : backfill_end_timestamps_t) (ts : Nat) : Region :=
  b.region.withInner ⟨b.region.inner.left, findStepRight b.steps ts b.region.inner.right⟩

/-- `get_max_timestamp` (source lines 40-42). -/
def backfill_end_timestamps_t.get_max_timestamp
    (b : backfill_end_timestamps_t) : Nat :=
  b.max_timestamp

/-- `combine` concatenates two maps covering adjacent regions
(source lines 57-82): empty arguments are absorbed; otherwise the region is
extended to the right, a shared boundary timestamp is deduplicated, and the
cached maximum is joined. -/
def backfill_end_timestamps_t.combine
    (self next : backfill_end_timestamps_t) : backfill_end_timestamps_t :=
  if region_is_empty next.region then self
  else if region_is_empty self.region then next
  else
    { region := self.region.withInner
        ⟨self.region.inner.left, next.region.inner.right⟩,
      max_timestamp := max self.max_timestamp next.max_timestamp,
      steps := self.steps ++
        (if (self.steps.getLastD (0, 0)).2 = (next.steps.headD (0, 0)).2
         then next.steps.tail else next.steps) }

/-- Well-formedness of the step list relative to its region, as asserted by
the source (`rassert`s in the constructor, comment at lines 24-26): steps
are nonempty, start at the region's left key, are strictly ascending by
left key with non-decreasing timestamps, and all step keys lie inside the
region. -/
def stepsWF (r : Region) (steps : List (Nat × Nat)) : Prop :=
  steps ≠ [] ∧
  (steps.headD (0, 0)).1 = r.inner.left ∧
  steps.Pairwise (fun a b => a.1 < b.1) ∧
  steps.Pairwise (fun a b => a.2 ≤ b.2) ∧
  ∀ p ∈ steps, rbLT p.1 r.inner.right = true

/-- Well-formedness of a whole map: its steps are well-formed, the cached
maximum is the last step's timestamp, and the region is nonempty. -/
def backfill_end_timestamps_t.wf (b : backfill_end_timestamps_t) : Prop :=
  stepsWF b.region b.steps ∧
  b.max_timestamp = (b.steps.getLastD (0, 0)).2 ∧
  region_is_empty b.region = false

/-! ## Lemmas about the step scan -/

/-- The scan either keeps the default right bound or cuts down to the left
key of a step whose timestamp is at least `t`. -/
theorem findStepRight_mem (l : List (Nat × Nat)) (t : Nat) (d : RightBound) :
    findStepRight l t d = d ∨
      ∃ p ∈ l, t ≤ p.2 ∧ findStepRight l t d = RightBound.key p.1 := by
  induction l with
  | nil => exact Or.inl rfl
  | cons s rest ih =>
    by_cases hts : t ≤ s.2
    · exact Or.inr ⟨s, List.mem_cons_self _ _, hts, by simp [findStepRight, hts]⟩
    · rcases ih with h | ⟨p, hp, hpt, hEq⟩
      · exact Or.inl (by simp [findStepRight, hts, h])
      · exact Or.inr ⟨p, List.mem_cons_of_mem _ hp, hpt,
          by simp [findStepRight, hts, hEq]⟩

/-- If every step's timestamp is strictly below `t`, the scan keeps the
default right bound. -/
theorem findStepRight_all_lt (l : List (Nat × Nat)) (t : Nat) (d : RightBound)
    (h : ∀ p ∈ l, p.2 < t) : findStepRight l t d = d := by
  induction l with
  | nil => rfl
  | cons s rest ih =>
    have hs : ¬ t ≤ s.2 := by
      have := h s (List.mem_cons_self _ _); omega
    simp only [findStepRight, hs, if_false]
    exact ih (fun p hp => h p (List.mem_cons_of_mem _ hp))

/-- The scan matches the first-step-with-timestamp-at-least-`t` search. -/
theorem findStepRight_eq_find (l : List (Nat × Nat)) (t : Nat) (d : RightBound) :
    findStepRight l t d =
      (match l.find? (fun s => decide (t ≤ s.2)) with
       | some s => RightBound.key s.1
       | none => d) := by
  induction l with
  | nil => rfl
  | cons s rest ih =>
    by_cases hts : t ≤ s.2
    · simp [findStepRight, hts, List.find?]
    · simp [findStepRight, hts, List.find?, ih]

/-- If some step has timestamp at least `t`, the scan result does not depend
on the default. -/
theorem findStepRight_found (l : List (Nat × Nat)) (t : Nat) (d d' : RightBound)
    (h : ∃ p ∈ l, t ≤ p.2) : findStepRight l t d = findStepRight l t d' := by
  induction l with
  | nil => simp at h
  | cons s rest ih =>
    by_cases hts : t ≤ s.2
    · simp [findStepRight, hts]
    · rcases h with ⟨p, hp, hpt⟩
      rcases List.mem_cons.mp hp with rfl | hp
      · exact absurd hpt hts
      · simp only [findStepRight, hts, if_false]
        exact ih ⟨p, hp, hpt⟩

/-- In a well-formed step list, every step key is at least the region's left
key. -/
theorem stepsWF_left_le {r : Region} {steps : List (Nat × Nat)}
    (h : stepsWF r steps) : ∀ p ∈ steps, r.inner.left ≤ p.1 := by
  obtain ⟨hne, hhead, hsort, _, _⟩ := h
  intro p hp
  match steps, hp with
  | s :: rest, hp =>
    simp only [List.headD_cons] at hhead
    rcases List.mem_cons.mp hp with rfl | hp
    · omega
    · have := (List.pairwise_cons.mp hsort).1 p hp
      omega


/-- Key of a member step lies below the scan result exactly when the step's
timestamp is strictly below `t`.  This is the heart of
`region_for_timestamp`. -/
theorem mem_findStepRight_iff (l : List (Nat × Nat)) (t : Nat) (d : RightBound)
    (hsort : l.Pairwise (fun a b => a.1 < b.1))
    (hmono : l.Pairwise (fun a b => a.2 ≤ b.2))
    (hbound : ∀ p ∈ l, rbLT p.1 d = true) :
    ∀ p ∈ l, (rbLT p.1 (findStepRight l t d) = true ↔ p.2 < t) := by
  induction l with
  | nil => intro p hp; simp at hp
  | cons s rest ih =>
    intro p hp
    by_cases hts : t ≤ s.2
    · simp only [findStepRight, hts, if_true]
      rcases List.mem_cons.mp hp with rfl | hp
      · simp only [rbLT, decide_eq_true_eq]
        omega
      · have h1 : s.1 < p.1 := (List.pairwise_cons.mp hsort).1 p hp
        have h2 : s.2 ≤ p.2 := (List.pairwise_cons.mp hmono).1 p hp
        simp only [rbLT, decide_eq_true_eq]
        omega
    · simp only [findStepRight, hts, if_false]
      rcases List.mem_cons.mp hp with rfl | hp
      · constructor
        · intro _; omega
        · intro _
          rcases findStepRight_mem rest t d with hEq | ⟨q, hq, _, hEq⟩
          · rw [hEq]; exact hbound p (List.mem_cons_self _ _)
          · rw [hEq]
            have h1 : p.1 < q.1 := (List.pairwise_cons.mp hsort).1 q hq
            simp only [rbLT, decide_eq_true_eq]
            omega
      · exact ih (List.pairwise_cons.mp hsort).2 (List.pairwise_cons.mp hmono).2
          (fun q hq => hbound q (List.mem_cons_of_mem _ hq)) p hp

/-- Claim C2: for every well-formed backfill-end-timestamp map and every
timestamp `t`, `region_for_timestamp t` keeps the hash bounds and the left
key of the map's domain; its right bound is the left key of the first step
whose timestamp is at least `t` (the domain's right bound when no step
qualifies); when the first step's timestamp is at least `t` the result is
the empty region; and a step's key lies in the result exactly when that
step's timestamp is strictly below `t`. -/
theorem claim_C2 (b : backfill_end_timestamps_t) (t : Nat) (hwf : b.wf) :
    (b.region_for_timestamp t).beg = b.region.beg ∧
    (b.region_for_timestamp t).fin = b.region.fin ∧
    (b.region_for_timestamp t).inner.left = b.region.inner.left ∧
    (b.region_for_timestamp t).inner.right =
      (match b.steps.find? (fun s => decide (t ≤ s.2)) with
       | some s => RightBound.key s.1
       | none => b.region.inner.right) ∧
    (t ≤ (b.steps.headD (0, 0)).2 →
      (b.region_for_timestamp t).inner.is_empty = true) ∧
    (∀ p ∈ b.steps,
      ((b.region_for_timestamp t).inner.containsKey p.1 = true ↔ p.2 < t)) := by
  obtain ⟨⟨hne, hhead, hsort, hmono, hbound⟩, _, _⟩ := hwf
  refine ⟨rfl, rfl, rfl, findStepRight_eq_find _ _ _, ?_, ?_⟩
  · intro hfirst
    match hsteps : b.steps, hne with
    | s :: rest, _ =>
      rw [hsteps] at hhead hfirst
      simp only [List.headD_cons] at hhead hfirst
      simp [backfill_end_timestamps_t.region_for_timestamp, Region.withInner,
        hsteps, findStepRight, hfirst, KeyRange.is_empty, hhead]
  · intro p hp
    have hleft : b.region.inner.left ≤ p.1 :=
      stepsWF_left_le ⟨hne, hhead, hsort, hmono, hbound⟩ p hp
    have hiff := mem_findStepRight_iff b.steps t b.region.inner.right
      hsort hmono hbound p hp
    simp only [backfill_end_timestamps_t.region_for_timestamp, Region.withInner,
      KeyRange.containsKey] at *
    simpa [hleft] using hiff

/-- Claim C2 witness: a concrete two-step map over the key range starting at
0, evaluated at timestamp 3, which falls strictly between the two step
timestamps; the cut lands on the second step's left key. -/
theorem claim_C2_witness :
    (⟨⟨0, 1, ⟨0, RightBound.unbounded⟩⟩, 4,
      [(0, 2), (5, 4)]⟩ : backfill_end_timestamps_t).wf ∧
    ((⟨⟨0, 1, ⟨0, RightBound.unbounded⟩⟩, 4,
      [(0, 2), (5, 4)]⟩ : backfill_end_timestamps_t).region_for_timestamp 3).inner.right
        = RightBound.key 5 :=
  have hwf : (⟨⟨0, 1, ⟨0, RightBound.unbounded⟩⟩, 4,
      [(0, 2), (5, 4)]⟩ : backfill_end_timestamps_t).wf :=
    ⟨⟨by decide, by decide, by decide, by decide, by decide⟩, by decide, by decide⟩
  ⟨hwf,
   (claim_C2 ⟨⟨0, 1, ⟨0, RightBound.unbounded⟩⟩, 4, [(0, 2), (5, 4)]⟩ 3 hwf).2.2.2.1⟩

/-! ## Lemmas for combining adjacent maps -/

/-- The scan over an appended step list scans the first list with the scan
of the second as its default. -/
theorem findStepRight_append (l1 l2 : List (Nat × Nat)) (t : Nat) (d : RightBound) :
    findStepRight (l1 ++ l2) t d = findStepRight l1 t (findStepRight l2 t d) := by
  induction l1 with
  | nil => rfl
  | cons s rest ih =>
    by_cases hts : t ≤ s.2 <;> simp [findStepRight, hts, ih]

/-- The last element with a default is the default or a member. -/
theorem getLastD_mem_or (l : List (Nat × Nat)) (d : Nat × Nat) :
    l.getLastD d = d ∨ l.getLastD d ∈ l := by
  induction l generalizing d with
  | nil => exact Or.inl rfl
  | cons s rest ih =>
    rw [List.getLastD_cons]
    rcases ih s with h | h
    · rw [h]; exact Or.inr (List.mem_cons_self _ _)
    · exact Or.inr (List.mem_cons_of_mem _ h)

/-- With non-decreasing timestamps, every member's timestamp is at most the
last one's. -/
theorem ts_le_getLastD (l : List (Nat × Nat)) (d : Nat × Nat)
    (hmono : l.Pairwise (fun a b => a.2 ≤ b.2)) :
    ∀ p ∈ l, p.2 ≤ (l.getLastD d).2 := by
  induction l generalizing d with
  | nil => intro p hp; simp at hp
  | cons s rest ih =>
    intro p hp
    rw [List.getLastD_cons]
    rcases List.mem_cons.mp hp with rfl | hp
    · rcases getLastD_mem_or rest p with h | h
      · rw [h]
      · exact (List.pairwise_cons.mp hmono).1 _ h
    · exact ih s (List.pairwise_cons.mp hmono).2 p hp

/-- Projections of `withInner`. -/
@[simp] theorem Region.withInner_inner (r : Region) (i : KeyRange) :
    (r.withInner i).inner = i := rfl

/-- Hash begin is preserved by `withInner`. -/
@[simp] theorem Region.withInner_beg (r : Region) (i : KeyRange) :
    (r.withInner i).beg = r.beg := rfl

/-- Hash end is preserved by `withInner`. -/
@[simp] theorem Region.withInner_fin (r : Region) (i : KeyRange) :
    (r.withInner i).fin = r.fin := rfl

/-- Splitting the key range from `al` up to a right bound `R` at an
intermediate key `bl` (with `bl` below `R`). -/
theorem containsKey_union (al bl : Nat) (R : RightBound) (k : Nat)
    (h1 : al < bl)
    (h2 : R = RightBound.unbounded ∨ ∃ x, R = RightBound.key x ∧ bl ≤ x) :
    KeyRange.containsKey ⟨al, R⟩ k =
      (KeyRange.containsKey ⟨al, RightBound.key bl⟩ k ||
       KeyRange.containsKey ⟨bl, R⟩ k) := by
  rcases h2 with h | ⟨x, hx, hblx⟩
  · subst h
    simp only [KeyRange.containsKey, rbLT, Bool.and_true]
    rw [Bool.eq_iff_iff]
    simp only [Bool.or_eq_true, Bool.and_eq_true, decide_eq_true_eq]
    omega
  · subst hx
    simp only [KeyRange.containsKey, rbLT]
    rw [Bool.eq_iff_iff]
    simp only [Bool.or_eq_true, Bool.and_eq_true, decide_eq_true_eq]
    omega

/-- A key range whose exclusive right bound equals its left key holds no
key. -/
theorem containsKey_empty_self (bl k : Nat) :
    KeyRange.containsKey ⟨bl, RightBound.key bl⟩ k = false := by
  simp only [KeyRange.containsKey, rbLT]
  rcases Nat.lt_or_ge k bl with h | h
  · simp [Nat.not_le.mpr h]
  · simp [Nat.not_lt.mpr h]

/-- Claim C5: for two well-formed backfill-end-timestamp maps over adjacent
regions whose timestamps link up, `combine` yields a map whose
`region_for_timestamp` is, for every timestamp and key, the union of the
two independent `region_for_timestamp` results; the combined step list
stays strictly ascending by left key (the shared boundary step is dropped);
and the combined cached maximum is the max of the two. -/
theorem claim_C5 (A B : backfill_end_timestamps_t)
    (hA : A.wf) (hB : B.wf)
    (hbeg : A.region.beg = B.region.beg) (hfin : A.region.fin = B.region.fin)
    (hadj : A.region.inner.right = RightBound.key B.region.inner.left)
    (hlink : (A.steps.getLastD (0, 0)).2 ≤ (B.steps.headD (0, 0)).2) :
    (∀ t k, ((A.combine B).region_for_timestamp t).inner.containsKey k =
      (((A.region_for_timestamp t).inner.containsKey k) ||
       ((B.region_for_timestamp t).inner.containsKey k))) ∧
    (A.combine B).steps.Pairwise (fun a b => a.1 < b.1) ∧
    (A.combine B).max_timestamp = max A.max_timestamp B.max_timestamp := by
  obtain ⟨⟨hAne, hAhead, hAsort, hAmono, hAbound⟩, _, hAreg⟩ := hA
  obtain ⟨⟨hBne, hBhead, hBsort, hBmono, hBbound⟩, _, hBreg⟩ := hB
  have hcomb : A.combine B =
      { region := A.region.withInner
          ⟨A.region.inner.left, B.region.inner.right⟩,
        max_timestamp := max A.max_timestamp B.max_timestamp,
        steps := A.steps ++
          (if (A.steps.getLastD (0, 0)).2 = (B.steps.headD (0, 0)).2
           then B.steps.tail else B.steps) } := by
    simp [backfill_end_timestamps_t.combine, hAreg, hBreg]
  -- All of A's step keys lie strictly left of B's region.
  have hAkeys : ∀ p ∈ A.steps, p.1 < B.region.inner.left := by
    intro p hp
    have := hAbound p hp
    rw [hadj] at this
    simpa [rbLT] using this
  have hBkeys : ∀ p ∈ B.steps, B.region.inner.left ≤ p.1 :=
    stepsWF_left_le ⟨hBne, hBhead, hBsort, hBmono, hBbound⟩
  have hAleftB : A.region.inner.left < B.region.inner.left := by
    match hsteps : A.steps, hAne with
    | s :: rest, _ =>
      have h1 := hAkeys s (by rw [hsteps]; exact List.mem_cons_self _ _)
      rw [hsteps] at hAhead
      simp only [List.headD_cons] at hAhead
      omega
  have hsubB : ∀ q ∈ (if (A.steps.getLastD (0, 0)).2 = (B.steps.headD (0, 0)).2
      then B.steps.tail else B.steps), q ∈ B.steps := by
    intro q hq
    split at hq
    · exact List.mem_of_mem_tail hq
    · exact hq
  refine ⟨?_, ?_, by rw [hcomb]⟩
  · intro t k
    rw [hcomb]
    simp only [backfill_end_timestamps_t.region_for_timestamp,
      Region.withInner_inner]
    rw [findStepRight_append]
    by_cases hall : ∀ p ∈ A.steps, p.2 < t
    · -- every step of A is strictly older than t: the A scan falls through
      have hAscan : ∀ d, findStepRight A.steps t d = d :=
        fun d => findStepRight_all_lt A.steps t d hall
      have hBagree : findStepRight
          (if (A.steps.getLastD (0, 0)).2 = (B.steps.headD (0, 0)).2
           then B.steps.tail else B.steps) t B.region.inner.right =
          findStepRight B.steps t B.region.inner.right := by
        split
        case isTrue hdup =>
          match hBsteps : B.steps, hBne with
          | b0 :: tail, _ =>
            have hlast : (A.steps.getLastD (0, 0)).2 < t := by
              rcases getLastD_mem_or A.steps (0, 0) with h | h
              · rw [h]
                match hsteps : A.steps, hAne with
                | s :: rest, _ =>
                  have := hall s (by rw [hsteps]; exact List.mem_cons_self _ _)
                  omega
              · exact hall _ h
            have hb0 : b0.2 < t := by
              rw [hBsteps] at hdup
              simp only [List.headD_cons] at hdup
              omega
            simp [findStepRight, Nat.not_le.mpr hb0]
        case isFalse => rfl
      simp only [hAscan, hBagree]
      have hRcase : findStepRight B.steps t B.region.inner.right =
            RightBound.unbounded ∨
          ∃ x, findStepRight B.steps t B.region.inner.right = RightBound.key x ∧
            B.region.inner.left ≤ x := by
        rcases findStepRight_mem B.steps t B.region.inner.right with h | ⟨q, hq, _, h⟩
        · rw [h]
          match hBsteps : B.steps, hBne with
          | b0 :: tail, _ =>
            have hb0 := hBbound b0 (by rw [hBsteps]; exact List.mem_cons_self _ _)
            rw [hBsteps] at hBhead
            simp only [List.headD_cons] at hBhead
            cases hBr : B.region.inner.right with
            | unbounded => exact Or.inl rfl
            | key y =>
              rw [hBr] at hb0
              simp only [rbLT, decide_eq_true_eq] at hb0
              exact Or.inr ⟨y, rfl, by omega⟩
        · exact Or.inr ⟨q.1, h, hBkeys q hq⟩
      rw [hadj]
      exact containsKey_union A.region.inner.left B.region.inner.left
        (findStepRight B.steps t B.region.inner.right) k hAleftB hRcase
    · -- some step of A is at timestamp ≥ t: the scan cuts inside A,
      -- and B contributes nothing
      push_neg at hall
      obtain ⟨s, hs, hst⟩ := hall
      have hAfound : findStepRight A.steps t
          (findStepRight (if (A.steps.getLastD (0, 0)).2 = (B.steps.headD (0, 0)).2
            then B.steps.tail else B.steps) t B.region.inner.right) =
          findStepRight A.steps t A.region.inner.right :=
        findStepRight_found A.steps t _ _ ⟨s, hs, hst⟩
      rw [hAfound]
      have hBfirst : t ≤ (B.steps.headD (0, 0)).2 := by
        have h1 : s.2 ≤ (A.steps.getLastD (0, 0)).2 := ts_le_getLastD _ _ hAmono s hs
        omega
      have hBscan : findStepRight B.steps t B.region.inner.right =
          RightBound.key B.region.inner.left := by
        match hBsteps : B.steps, hBne with
        | b0 :: tail, _ =>
          rw [hBsteps] at hBfirst hBhead
          simp only [List.headD_cons] at hBfirst hBhead
          simp [findStepRight, hBfirst, hBhead]
      rw [hBscan, containsKey_empty_self, Bool.or_false]
  · rw [hcomb]
    simp only [List.pairwise_append]
    refine ⟨hAsort, ?_, ?_⟩
    · split
      · exact hBsort.tail
      · exact hBsort
    · intro a ha b hb
      have h1 := hAkeys a ha
      have h2 := hBkeys b (hsubB b hb)
      omega

/-- A concrete left map used for the claim C5 witness. -/
def betsA : backfill_end_timestamps_t :=
  ⟨⟨0, 1, ⟨0, RightBound.key 10⟩⟩, 5, [(0, 2), (4, 5)]⟩

/-- A concrete right map, adjacent to `betsA` and sharing its boundary
timestamp (so `combine` deduplicates the boundary step). -/
def betsB : backfill_end_timestamps_t :=
  ⟨⟨0, 1, ⟨10, RightBound.key 20⟩⟩, 8, [(10, 5), (15, 8)]⟩

/-- Claim C5 witness: the two concrete adjacent maps satisfy every
hypothesis, and the combined map agrees with the union of the two
independent results at timestamp 6 and key 12. -/
theorem claim_C5_witness :
    betsA.wf ∧ betsB.wf ∧
    betsA.region.beg = betsB.region.beg ∧
    betsA.region.fin = betsB.region.fin ∧
    betsA.region.inner.right = RightBound.key betsB.region.inner.left ∧
    (betsA.steps.getLastD (0, 0)).2 ≤ (betsB.steps.headD (0, 0)).2 ∧
    ((betsA.combine betsB).region_for_timestamp 6).inner.containsKey 12 =
      (((betsA.region_for_timestamp 6).inner.containsKey 12) ||
       ((betsB.region_for_timestamp 6).inner.containsKey 12)) :=
  have hA : betsA.wf :=
    ⟨⟨by decide, by decide, by decide, by decide, by decide⟩, by decide, by decide⟩
  have hB : betsB.wf :=
    ⟨⟨by decide, by decide, by decide, by decide, by decide⟩, by decide, by decide⟩
  ⟨hA, hB, rfl, rfl, rfl, by decide,
   (claim_C5 betsA betsB hA hB rfl rfl rfl (by decide)).1 6 12⟩

/-! ## The backfill end timestamp covering a single key, and the drain

The drainer (`drain_stream_queue`, source lines 405-501) pops each queue
entry, clips its write to `region_for_timestamp(entry.timestamp)` (setting
`has_write` to false when the restriction is empty, lines 440-448) and
applies the result to the store.  To reason about exactly-once delivery we
project the construction onto one fixed key `k`: a queue entry either
covers `k` (after the queueing shard) or not, and applying it at `k`
transforms the store value at `k`. -/

/-- Scan the step list keeping the timestamp of the last step whose left
key is at most `k`; `acc` is the timestamp recorded so far. -/
def stepTSAt : List (Nat × Nat) → Nat → Nat → Nat
  | [], _, acc => acc
  | s :: rest, k, acc =>
    if s.1 ≤ k then stepTSAt rest k s.2 else stepTSAt rest k acc

/-- The backfill end timestamp covering key `k`: the timestamp of the step
whose segment contains `k` (the last step with left key at most `k`). -/
def backfill_end_timestamps_t.timestamp_at
    (b : backfill_end_timestamps_t) (k : Nat) : Nat :=
  stepTSAt b.steps k 0

/-- The scan result is the accumulator or the timestamp of a qualifying
step. -/
theorem stepTSAt_mem_or (l : List (Nat × Nat)) (k acc : Nat) :
    stepTSAt l k acc = acc ∨ ∃ q ∈ l, q.1 ≤ k ∧ stepTSAt l k acc = q.2 := by
  induction l generalizing acc with
  | nil => exact Or.inl rfl
  | cons s rest ih =>
    by_cases hs : s.1 ≤ k
    · simp only [stepTSAt, hs, if_true]
      rcases ih s.2 with h | ⟨q, hq, hqk, h⟩
      · exact Or.inr ⟨s, List.mem_cons_self _ _, hs, h⟩
      · exact Or.inr ⟨q, List.mem_cons_of_mem _ hq, hqk, h⟩
    · simp only [stepTSAt, hs, if_false]
      rcases ih acc with h | ⟨q, hq, hqk, h⟩
      · exact Or.inl h
      · exact Or.inr ⟨q, List.mem_cons_of_mem _ hq, hqk, h⟩

/-- With non-decreasing timestamps, the scan result is at least the
timestamp of every qualifying step. -/
theorem stepTSAt_ge (l : List (Nat × Nat)) (k : Nat)
    (hmono : l.Pairwise (fun a b => a.2 ≤ b.2)) :
    ∀ acc, ∀ p ∈ l, p.1 ≤ k → p.2 ≤ stepTSAt l k acc := by
  induction l with
  | nil => intro acc p hp; simp at hp
  | cons s rest ih =>
    intro acc p hp hpk
    rcases List.mem_cons.mp hp with rfl | hp
    · simp only [stepTSAt, hpk, if_true]
      rcases stepTSAt_mem_or rest k p.2 with h | ⟨q, hq, _, h⟩
      · omega
      · have := (List.pairwise_cons.mp hmono).1 q hq
        omega
    · by_cases hs : s.1 ≤ k
      · simp only [stepTSAt, hs, if_true]
        exact ih (List.pairwise_cons.mp hmono).2 s.2 p hp hpk
      · simp only [stepTSAt, hs, if_false]
        exact ih (List.pairwise_cons.mp hmono).2 acc p hp hpk

/-- If every qualifying step's timestamp is strictly below `t` and the
accumulator is too, so is the scan result. -/
theorem stepTSAt_lt (l : List (Nat × Nat)) (k t : Nat)
    (hall : ∀ p ∈ l, p.1 ≤ k → p.2 < t) :
    ∀ acc, acc < t → stepTSAt l k acc < t := by
  induction l with
  | nil => intro acc h; exact h
  | cons s rest ih =>
    intro acc hacc
    by_cases hs : s.1 ≤ k
    · simp only [stepTSAt, hs, if_true]
      exact ih (fun p hp => hall p (List.mem_cons_of_mem _ hp))
        s.2 (hall s (List.mem_cons_self _ _) hs)
    · simp only [stepTSAt, hs, if_false]
      exact ih (fun p hp => hall p (List.mem_cons_of_mem _ hp)) acc hacc

/-- The scan either falls through with every timestamp strictly below `t`,
or stops at the first step with timestamp at least `t`. -/
theorem findStepRight_decomp (l : List (Nat × Nat)) (t : Nat) (d : RightBound) :
    (findStepRight l t d = d ∧ ∀ p ∈ l, p.2 < t) ∨
    ∃ pre s post, l = pre ++ s :: post ∧ (∀ p ∈ pre, p.2 < t) ∧ t ≤ s.2 ∧
      findStepRight l t d = RightBound.key s.1 := by
  induction l with
  | nil => exact Or.inl ⟨rfl, by simp⟩
  | cons a rest ih =>
    by_cases hts : t ≤ a.2
    · refine Or.inr ⟨[], a, rest, by simp, by simp, hts, ?_⟩
      simp [findStepRight, hts]
    · rcases ih with ⟨hEq, hall⟩ | ⟨pre, s, post, hdecomp, hpre, hst, hEq⟩
      · refine Or.inl ⟨by simp [findStepRight, hts, hEq], ?_⟩
        intro p hp
        rcases List.mem_cons.mp hp with rfl | hp
        · omega
        · exact hall p hp
      · refine Or.inr ⟨a :: pre, s, post, by simp [hdecomp], ?_, hst,
          by simp [findStepRight, hts, hEq]⟩
        intro p hp
        rcases List.mem_cons.mp hp with rfl | hp
        · omega
        · exact hpre p hp

/-- The key-level reading of `region_for_timestamp`: a key of the map's
domain lies in `region_for_timestamp t` exactly when the backfill end
timestamp covering that key is strictly below `t`. -/
theorem containsKey_rft_iff (b : backfill_end_timestamps_t) (hwf : b.wf)
    (k : Nat) (hk : b.region.inner.containsKey k = true) (t : Nat) :
    ((b.region_for_timestamp t).inner.containsKey k = true) ↔
      b.timestamp_at k < t := by
  obtain ⟨⟨hne, hhead, hsort, hmono, hbound⟩, _, _⟩ := hwf
  simp only [KeyRange.containsKey, Bool.and_eq_true, decide_eq_true_eq] at hk
  obtain ⟨hleft, hright⟩ := hk
  simp only [backfill_end_timestamps_t.region_for_timestamp,
    Region.withInner_inner, KeyRange.containsKey, Bool.and_eq_true,
    decide_eq_true_eq, backfill_end_timestamps_t.timestamp_at]
  rcases findStepRight_decomp b.steps t b.region.inner.right with
    ⟨hEq, hall⟩ | ⟨pre, s, post, hdecomp, hpre, hst, hEq⟩
  · -- all steps strictly older than t: both sides hold
    rw [hEq]
    have htpos : 0 < t := by
      match hsteps : b.steps, hne with
      | s :: rest, _ =>
        have := hall s (by rw [hsteps]; exact List.mem_cons_self _ _)
        omega
    have : stepTSAt b.steps k 0 < t :=
      stepTSAt_lt b.steps k t (fun p hp _ => hall p hp) 0 htpos
    simp [hleft, hright, this]
  · rw [hEq]
    simp only [rbLT, decide_eq_true_eq]
    have hsl : s ∈ b.steps := by rw [hdecomp]; simp
    constructor
    · rintro ⟨-, hks⟩
      -- k is left of the cut: every qualifying step is in `pre`
      have hprene : pre ≠ [] := by
        intro hnil
        rw [hnil] at hdecomp
        rw [hdecomp] at hhead
        simp only [List.nil_append, List.headD_cons] at hhead
        omega
      have htpos : 0 < t := by
        match hprem : pre, hprene with
        | q :: rest, _ =>
          have := hpre q (List.mem_cons_self _ _)
          omega
      refine stepTSAt_lt b.steps k t ?_ 0 htpos
      intro p hp hpk
      rw [hdecomp] at hp hsort
      rcases List.mem_append.mp hp with hp | hp
      · exact hpre p hp
      · rcases List.mem_cons.mp hp with rfl | hp
        · omega
        · have : s.1 < p.1 :=
            (List.pairwise_cons.mp (List.pairwise_append.mp hsort).2.1).1 p hp
          omega
    · intro hlt
      refine ⟨hleft, ?_⟩
      by_contra hks
      have h1 : s.2 ≤ stepTSAt b.steps k 0 :=
        stepTSAt_ge b.steps k hmono 0 s hsl (by omega)
      omega

/-- The effect of one popped queue entry on the store value at a fixed key
`k`: its timestamp, whether its write covers `k` after the queueing shard
(an entry with `has_write = false` covers no key), and the transformation
it applies to the value at `k`. -/
structure queue_entry_at (V : Type) where
  timestamp : Nat
  covers : Bool
  op : V → V

/-- Apply a sequence of writes at key `k` in order, each exactly once; a
write that does not cover `k` leaves the value unchanged. -/
def apply_writes_at {V : Type} (es : List (queue_entry_at V)) (v : V) : V :=
  es.foldl (fun v e => if e.covers then e.op v else v) v

/-- The drain loop at key `k` (source lines 416-491): each popped entry is
clipped to `region_for_timestamp(entry.timestamp)`, so it changes the value
at `k` only when it covers `k` and `k` lies in the clipped region. -/
def drain_stream_queue_at {V : Type} (b : backfill_end_timestamps_t) (k : Nat)
    (queue : List (queue_entry_at V)) (v : V) : V :=
  queue.foldl (fun v e =>
    if e.covers && (b.region_for_timestamp e.timestamp).inner.containsKey k
    then e.op v else v) v

/-- One step of the drain fold. -/
theorem drain_stream_queue_at_cons {V : Type} (b : backfill_end_timestamps_t)
    (k : Nat) (e : queue_entry_at V) (rest : List (queue_entry_at V)) (v : V) :
    drain_stream_queue_at b k (e :: rest) v =
      drain_stream_queue_at b k rest
        (if (e.covers && (b.region_for_timestamp e.timestamp).inner.containsKey k)
         then e.op v else v) := rfl

/-- One step of applying writes. -/
theorem apply_writes_at_cons {V : Type} (e : queue_entry_at V)
    (rest : List (queue_entry_at V)) (v : V) :
    apply_writes_at (e :: rest) v =
      apply_writes_at rest (if e.covers then e.op v else v) := rfl

/-- Draining is the same as applying, in order, exactly the entries whose
clipped region still contains `k`. -/
theorem drain_eq_apply_filter {V : Type} (b : backfill_end_timestamps_t)
    (k : Nat) (queue : List (queue_entry_at V)) (v : V) :
    drain_stream_queue_at b k queue v =
      apply_writes_at
        (queue.filter
          (fun e => (b.region_for_timestamp e.timestamp).inner.containsKey k))
        v := by
  induction queue generalizing v with
  | nil => rfl
  | cons e rest ih =>
    rw [List.filter_cons, drain_stream_queue_at_cons]
    by_cases hc : (b.region_for_timestamp e.timestamp).inner.containsKey k = true
    · rw [if_pos hc, apply_writes_at_cons, hc, Bool.and_true]
      exact ih _
    · rw [if_neg hc]
      have h0 := Bool.not_eq_true _ |>.mp hc
      have h1 : (e.covers &&
          (b.region_for_timestamp e.timestamp).inner.containsKey k) = false := by
        simp [h0]
      rw [h1]
      simp only [Bool.false_eq_true, if_false]
      exact ih v

/-- On a strictly timestamp-sorted list, filtering the old writes keeps a
longest old head segment. -/
theorem filter_le_eq_takeWhile {V : Type} (es : List (queue_entry_at V)) (B : Nat)
    (hsort : es.Pairwise (fun a b => a.timestamp < b.timestamp)) :
    es.filter (fun e => decide (e.timestamp ≤ B)) =
      es.takeWhile (fun e => decide (e.timestamp ≤ B)) := by
  induction es with
  | nil => rfl
  | cons a rest ih =>
    by_cases ha : a.timestamp ≤ B
    · simp only [List.filter_cons, List.takeWhile_cons, ha, decide_True, if_true]
      rw [ih (List.pairwise_cons.mp hsort).2]
    · simp only [List.filter_cons, List.takeWhile_cons, ha, decide_False,
        Bool.false_eq_true, if_false]
      rw [List.filter_eq_nil_iff.mpr]
      intro e he
      have := (List.pairwise_cons.mp hsort).1 e he
      simp only [decide_eq_true_eq]
      omega

/-- On a strictly timestamp-sorted list, filtering the newer writes drops
exactly the old head segment. -/
theorem filter_gt_eq_dropWhile {V : Type} (es : List (queue_entry_at V)) (B : Nat)
    (hsort : es.Pairwise (fun a b => a.timestamp < b.timestamp)) :
    es.filter (fun e => decide (B < e.timestamp)) =
      es.dropWhile (fun e => decide (e.timestamp ≤ B)) := by
  induction es with
  | nil => rfl
  | cons a rest ih =>
    by_cases ha : a.timestamp ≤ B
    · have ha2 : ¬ B < a.timestamp := by omega
      simp only [List.filter_cons, List.dropWhile_cons, ha, ha2, decide_True,
        decide_False, Bool.false_eq_true, if_false, if_true]
      exact ih (List.pairwise_cons.mp hsort).2
    · have ha2 : B < a.timestamp := by omega
      simp only [List.filter_cons, List.dropWhile_cons, ha, ha2, decide_True,
        decide_False, Bool.false_eq_true, if_false, if_true]
      congr 1
      rw [List.filter_eq_self]
      intro e he
      have := (List.pairwise_cons.mp hsort).1 e he
      simp only [decide_eq_true_eq]
      omega

/-- Claim C1: exactly-once apply at a fixed key `k` of the map's domain.
The primary's writes `es` carry strictly increasing timestamps; the queue
holds exactly the writes after the stream subscription point `T0`; the
value handed to the drain is the backfilled state at `k`, i.e. the result
of applying exactly the writes up to the backfill end timestamp covering
`k`.  After the drain — which clips each popped entry to
`region_for_timestamp(entry.timestamp)`, so a queued write whose timestamp
is at most the backfill end timestamp covering `k` is not re-applied —
the value at `k` is the result of applying every write exactly once in
timestamp order. -/
theorem claim_C1 {V : Type} (b : backfill_end_timestamps_t) (hwf : b.wf)
    (k : Nat) (hk : b.region.inner.containsKey k = true)
    (es : List (queue_entry_at V))
    (hsort : es.Pairwise (fun a b => a.timestamp < b.timestamp))
    (T0 : Nat) (hT0 : T0 ≤ b.timestamp_at k) (v0 : V) :
    drain_stream_queue_at b k
      (es.filter (fun e => decide (T0 < e.timestamp)))
      (apply_writes_at
        (es.filter (fun e => decide (e.timestamp ≤ b.timestamp_at k))) v0) =
    apply_writes_at es v0 := by
  rw [drain_eq_apply_filter]
  have hpoint : ∀ e : queue_entry_at V,
      ((b.region_for_timestamp e.timestamp).inner.containsKey k) =
        decide (b.timestamp_at k < e.timestamp) := by
    intro e
    have h := containsKey_rft_iff b hwf k hk e.timestamp
    by_cases hcase : b.timestamp_at k < e.timestamp
    · simp [hcase, h.mpr hcase]
    · simp only [hcase, decide_False]
      cases hval : (b.region_for_timestamp e.timestamp).inner.containsKey k
      · rfl
      · exact absurd (h.mp hval) hcase
  rw [List.filter_congr (fun e _ => hpoint e), List.filter_filter]
  have hcollapse :
      (fun e : queue_entry_at V =>
        decide (b.timestamp_at k < e.timestamp) && decide (T0 < e.timestamp)) =
      (fun e : queue_entry_at V => decide (b.timestamp_at k < e.timestamp)) := by
    funext e
    by_cases h1 : b.timestamp_at k < e.timestamp
    · have h2 : T0 < e.timestamp := by omega
      simp [h1, h2]
    · simp [h1]
  rw [hcollapse, filter_le_eq_takeWhile es _ hsort, filter_gt_eq_dropWhile es _ hsort]
  have hsplit := List.takeWhile_append_dropWhile
    (fun e : queue_entry_at V => decide (e.timestamp ≤ b.timestamp_at k)) es
  conv_rhs => rw [← hsplit]
  simp only [apply_writes_at, List.foldl_append]

/-- The concrete write sequence used for the claim C1 witness: three writes
at timestamps 1, 2, 3 covering the key, each appending its timestamp to the
value. -/
def c1Entries : List (queue_entry_at (List Nat)) :=
  [⟨1, true, fun v => v ++ [1]⟩, ⟨2, true, fun v => v ++ [2]⟩,
   ⟨3, true, fun v => v ++ [3]⟩]

/-- Claim C1 witness: with the concrete map `betsA` (backfill end timestamp
2 at key 2), subscription point 1, and the three concrete writes, the
drained value equals applying every write exactly once in order. -/
theorem claim_C1_witness :
    betsA.wf ∧ betsA.region.inner.containsKey 2 = true ∧
    c1Entries.Pairwise (fun a b => a.timestamp < b.timestamp) ∧
    1 ≤ betsA.timestamp_at 2 ∧
    drain_stream_queue_at betsA 2
      (c1Entries.filter (fun e => decide (1 < e.timestamp)))
      (apply_writes_at
        (c1Entries.filter (fun e => decide (e.timestamp ≤ betsA.timestamp_at 2)))
        []) =
      apply_writes_at c1Entries [] :=
  have hwf : betsA.wf :=
    ⟨⟨by decide, by decide, by decide, by decide, by decide⟩, by decide, by decide⟩
  have hsort : c1Entries.Pairwise (fun a b => a.timestamp < b.timestamp) := by
    simp [c1Entries]
  ⟨hwf, by decide, hsort, by decide,
   claim_C1 betsA hwf 2 (by decide) c1Entries hsort 1 (by decide) []⟩

/-! ## The region partition maintained by the constructor

Source: `remote_replicator_client_t::remote_replicator_client_t`
(lines 90-363).  The constructor maintains three region fields
`region_streaming_`, `region_queueing_`, `region_discarding_` and mutates
them, under the exclusive lock, at exactly three points of the backfill
loop.  Per the source comment at lines 134-135 the store's region is the
entire key-space, so its key range starts at the minimal key. -/

structure RegionTriple where
  streaming : Region
  queueing : Region
  discarding : Region
  deriving DecidableEq, Repr

/-- The phase of the backfill loop between two region transitions. -/
inductive LoopPhase where
  | between
  | queueing_grown
  | backfilled
  deriving DecidableEq, Repr

/-- The discarding region set by the end-phase transition (source lines
258-263): everything from the reached right bound to the store's right
bound, or the canonical empty region when the reached bound is unbounded.
Only the key range of the old discarding region is overwritten. -/
def endDiscard (A d : Region) : RightBound → Region
  | RightBound.unbounded => Region.emptyRegion
  | RightBound.key w => d.withInner ⟨w, A.inner.right⟩

/-- The states of the three region fields reachable through the
constructor's transitions, relative to the assigned store region `A`.

* `init` (lines 136-137): streaming and queueing empty, discarding the
  whole region.
* `begin_phase` (lines 186-188, guarded by the loop condition at line 172):
  queueing takes over discarding, discarding becomes empty.
* `end_phase` (lines 257-263): queueing's right bound is cut to the right
  bound the backfill reached (which lies between queueing's left key and
  the store's right bound, since the callback starts at queueing's left and
  advances through chunks of the store's key space); discarding becomes
  everything to the right of it, or the canonical empty region when the
  bound is unbounded.
* `promote` (lines 329-330): streaming's right bound becomes queueing's,
  queueing becomes empty. -/
inductive Reachable (A : Region) : LoopPhase → RegionTriple → Prop where
  | init :
      Reachable A LoopPhase.between
        ⟨A.withInner KeyRange.emptyRange, A.withInner KeyRange.emptyRange, A⟩
  | begin_phase (st : RegionTriple)
      (h : Reachable A LoopPhase.between st)
      (hloop : st.streaming.inner.right ≠ A.inner.right) :
      Reachable A LoopPhase.queueing_grown
        ⟨st.streaming, st.discarding, st.discarding.withInner KeyRange.emptyRange⟩
  | end_phase (st : RegionTriple) (r : RightBound)
      (h : Reachable A LoopPhase.queueing_grown st)
      (h1 : rbLE (RightBound.key st.queueing.inner.left) r = true)
      (h2 : rbLE r A.inner.right = true) :
      Reachable A LoopPhase.backfilled
        ⟨st.streaming,
         st.queueing.withInner ⟨st.queueing.inner.left, r⟩,
         endDiscard A st.discarding r⟩
  | promote (st : RegionTriple)
      (h : Reachable A LoopPhase.backfilled st) :
      Reachable A LoopPhase.between
        ⟨st.streaming.withInner
           ⟨st.streaming.inner.left, st.queueing.inner.right⟩,
         st.queueing.withInner KeyRange.emptyRange,
         st.discarding⟩

/-- The partition property of claim C3: the three regions are pairwise
disjoint, ordered left to right, and together cover exactly the assigned
region. -/
def PartitionOK (A : Region) (st : RegionTriple) : Prop :=
  (∀ h k, ¬(st.streaming.containsHK h k = true ∧ st.queueing.containsHK h k = true)) ∧
  (∀ h k, ¬(st.streaming.containsHK h k = true ∧ st.discarding.containsHK h k = true)) ∧
  (∀ h k, ¬(st.queueing.containsHK h k = true ∧ st.discarding.containsHK h k = true)) ∧
  (∀ h k1 k2, st.streaming.containsHK h k1 = true →
    st.queueing.containsHK h k2 = true → k1 < k2) ∧
  (∀ h k1 k2, st.streaming.containsHK h k1 = true →
    st.discarding.containsHK h k2 = true → k1 < k2) ∧
  (∀ h k1 k2, st.queueing.containsHK h k1 = true →
    st.discarding.containsHK h k2 = true → k1 < k2) ∧
  (∀ h k, A.containsHK h k = true ↔
    (st.streaming.containsHK h k = true ∨ st.queueing.containsHK h k = true ∨
     st.discarding.containsHK h k = true))

/-- Membership in a region, spelled as inequalities. -/
theorem containsHK_iff (r : Region) (h k : Nat) :
    r.containsHK h k = true ↔
      (r.beg ≤ h ∧ h < r.fin ∧ r.inner.left ≤ k ∧ rbLT k r.inner.right = true) := by
  simp [Region.containsHK, KeyRange.containsKey, and_assoc]

/-- No pair lies in the canonical empty region. -/
theorem emptyRegion_contains (h k : Nat) :
    Region.emptyRegion.containsHK h k = false := by
  simp [Region.emptyRegion, Region.containsHK]

/-- No key lies in the canonical empty key range. -/
theorem emptyRange_contains (r : Region) (h k : Nat) :
    (r.withInner KeyRange.emptyRange).containsHK h k = false := by
  simp [Region.withInner, Region.containsHK, KeyRange.containsKey,
    KeyRange.emptyRange, rbLT]

/-- Only `unbounded` dominates `unbounded`. -/
theorem rbLE_unbounded_left {x : RightBound}
    (h : rbLE RightBound.unbounded x = true) : x = RightBound.unbounded := by
  cases x with
  | key _ => simp [rbLE] at h
  | unbounded => rfl

/-- Shape of the region triple between two backfill phases. -/
def ShapeBetween (A : Region) (st : RegionTriple) : Prop :=
  ∃ a : RightBound, rbLE a A.inner.right = true ∧
    st.streaming = ⟨A.beg, A.fin, ⟨0, a⟩⟩ ∧
    st.queueing = ⟨A.beg, A.fin, KeyRange.emptyRange⟩ ∧
    ((∃ w, a = RightBound.key w ∧
        st.discarding = ⟨A.beg, A.fin, ⟨w, A.inner.right⟩⟩) ∨
     (a = RightBound.unbounded ∧ st.discarding = Region.emptyRegion))

/-- Shape of the region triple after the queueing region has been grown. -/
def ShapeQueueing (A : Region) (st : RegionTriple) : Prop :=
  ∃ w : Nat, rbLE (RightBound.key w) A.inner.right = true ∧
    st.streaming = ⟨A.beg, A.fin, ⟨0, RightBound.key w⟩⟩ ∧
    st.queueing = ⟨A.beg, A.fin, ⟨w, A.inner.right⟩⟩ ∧
    st.discarding = ⟨A.beg, A.fin, KeyRange.emptyRange⟩

/-- Shape of the region triple after the queueing region has been shrunk to
the backfilled range. -/
def ShapeBackfilled (A : Region) (st : RegionTriple) : Prop :=
  ∃ w : Nat, ∃ r : RightBound,
    rbLE (RightBound.key w) r = true ∧ rbLE r A.inner.right = true ∧
    st.streaming = ⟨A.beg, A.fin, ⟨0, RightBound.key w⟩⟩ ∧
    st.queueing = ⟨A.beg, A.fin, ⟨w, r⟩⟩ ∧
    ((∃ u, r = RightBound.key u ∧
        st.discarding = ⟨A.beg, A.fin, ⟨u, A.inner.right⟩⟩) ∨
     (r = RightBound.unbounded ∧ st.discarding = Region.emptyRegion))

/-- The phase-indexed shape invariant. -/
def ShapeAt (A : Region) : LoopPhase → RegionTriple → Prop
  | LoopPhase.between => ShapeBetween A
  | LoopPhase.queueing_grown => ShapeQueueing A
  | LoopPhase.backfilled => ShapeBackfilled A

/-- Every reachable state of the constructor's region triple has the shape
of its phase. -/
theorem reachable_shape (A : Region) (hA : A.inner.left = 0)
    (ph : LoopPhase) (st : RegionTriple)
    (h : Reachable A ph st) : ShapeAt A ph st := by
  induction h with
  | init =>
    refine ⟨RightBound.key 0, ?_, rfl, rfl, Or.inl ⟨0, rfl, ?_⟩⟩
    · cases hr : A.inner.right <;> simp [rbLE]
    · show A = ⟨A.beg, A.fin, ⟨0, A.inner.right⟩⟩
      cases A with
      | mk beg fin inner =>
        cases inner with
        | mk left right => simp_all
  | begin_phase st h hloop ih =>
    obtain ⟨a, haA, hstr, hq, hdisj⟩ := ih
    rcases hdisj with ⟨w, rfl, hd⟩ | ⟨rfl, hd⟩
    · exact ⟨w, haA, hstr, by rw [hd], by simp [hd, Region.withInner]⟩
    · exfalso
      apply hloop
      rw [hstr, rbLE_unbounded_left haA]
  | end_phase st r h h1 h2 ih =>
    obtain ⟨w, hwA, hstr, hq, hd⟩ := ih
    rw [hq] at h1
    refine ⟨w, r, h1, h2, hstr, by simp [hq, Region.withInner], ?_⟩
    cases r with
    | key u => exact Or.inl ⟨u, rfl, by simp [endDiscard, hd, Region.withInner]⟩
    | unbounded => exact Or.inr ⟨rfl, rfl⟩
  | promote st h ih =>
    obtain ⟨w, r, hwr, hrA, hstr, hq, hd⟩ := ih
    exact ⟨r, hrA, by simp [hstr, hq, Region.withInner],
      by simp [hq, Region.withInner], hd⟩

/-- No pair lies in a region whose key range is the canonical empty range. -/
theorem containsHK_emptyRange (b f h k : Nat) :
    (Region.mk b f KeyRange.emptyRange).containsHK h k = false := by
  simp [Region.containsHK, KeyRange.containsKey, KeyRange.emptyRange, rbLT]

/-- A between-phase state is a partition. -/
theorem shapeBetween_partition (A : Region) (hA : A.inner.left = 0)
    (st : RegionTriple) (hsh : ShapeBetween A st) : PartitionOK A st := by
  obtain ⟨a, haA, hstr, hq, hdisj⟩ := hsh
  rcases hdisj with ⟨w, rfl, hd⟩ | ⟨rfl, hd⟩
  · cases hAr : A.inner.right with
    | key R =>
      rw [hAr] at hd haA
      simp only [rbLE, decide_eq_true_eq] at haA
      refine ⟨fun h k => ?_, fun h k => ?_, fun h k => ?_, fun h k1 k2 => ?_,
        fun h k1 k2 => ?_, fun h k1 k2 => ?_, fun h k => ?_⟩ <;>
        simp [hstr, hq, hd, containsHK_iff, containsHK_emptyRange,
          KeyRange.emptyRange, rbLT, decide_eq_true_eq, hA, hAr,
          Bool.false_eq_true] <;>
        omega
    | unbounded =>
      rw [hAr] at hd
      refine ⟨fun h k => ?_, fun h k => ?_, fun h k => ?_, fun h k1 k2 => ?_,
        fun h k1 k2 => ?_, fun h k1 k2 => ?_, fun h k => ?_⟩ <;>
        simp [hstr, hq, hd, containsHK_iff, containsHK_emptyRange,
          KeyRange.emptyRange, rbLT, decide_eq_true_eq, hA, hAr,
          Bool.false_eq_true] <;>
        omega
  · have hAr := rbLE_unbounded_left haA
    refine ⟨fun h k => ?_, fun h k => ?_, fun h k => ?_, fun h k1 k2 => ?_,
      fun h k1 k2 => ?_, fun h k1 k2 => ?_, fun h k => ?_⟩ <;>
      simp [hstr, hq, hd, containsHK_iff, containsHK_emptyRange,
        emptyRegion_contains, KeyRange.emptyRange, rbLT, decide_eq_true_eq,
        hA, hAr, Bool.false_eq_true] <;>
      omega

/-- A queueing-grown state is a partition. -/
theorem shapeQueueing_partition (A : Region) (hA : A.inner.left = 0)
    (st : RegionTriple) (hsh : ShapeQueueing A st) : PartitionOK A st := by
  obtain ⟨w, hwA, hstr, hq, hd⟩ := hsh
  cases hAr : A.inner.right with
  | key R =>
    rw [hAr] at hq hwA
    simp only [rbLE, decide_eq_true_eq] at hwA
    refine ⟨fun h k => ?_, fun h k => ?_, fun h k => ?_, fun h k1 k2 => ?_,
      fun h k1 k2 => ?_, fun h k1 k2 => ?_, fun h k => ?_⟩ <;>
      simp [hstr, hq, hd, containsHK_iff, containsHK_emptyRange,
        KeyRange.emptyRange, rbLT, decide_eq_true_eq, hA, hAr,
        Bool.false_eq_true] <;>
      omega
  | unbounded =>
    rw [hAr] at hq
    refine ⟨fun h k => ?_, fun h k => ?_, fun h k => ?_, fun h k1 k2 => ?_,
      fun h k1 k2 => ?_, fun h k1 k2 => ?_, fun h k => ?_⟩ <;>
      simp [hstr, hq, hd, containsHK_iff, containsHK_emptyRange,
        KeyRange.emptyRange, rbLT, decide_eq_true_eq, hA, hAr,
        Bool.false_eq_true] <;>
      omega

/-- A backfilled state is a partition. -/
theorem shapeBackfilled_partition (A : Region) (hA : A.inner.left = 0)
    (st : RegionTriple) (hsh : ShapeBackfilled A st) : PartitionOK A st := by
  obtain ⟨w, r, hwr, hrA, hstr, hq, hdisj⟩ := hsh
  rcases hdisj with ⟨u, rfl, hd⟩ | ⟨rfl, hd⟩
  · simp only [rbLE, decide_eq_true_eq] at hwr
    cases hAr : A.inner.right with
    | key R =>
      rw [hAr] at hd hrA
      simp only [rbLE, decide_eq_true_eq] at hrA
      refine ⟨fun h k => ?_, fun h k => ?_, fun h k => ?_, fun h k1 k2 => ?_,
        fun h k1 k2 => ?_, fun h k1 k2 => ?_, fun h k => ?_⟩ <;>
        simp [hstr, hq, hd, containsHK_iff, containsHK_emptyRange,
          KeyRange.emptyRange, rbLT, decide_eq_true_eq, hA, hAr,
          Bool.false_eq_true] <;>
        omega
    | unbounded =>
      rw [hAr] at hd
      refine ⟨fun h k => ?_, fun h k => ?_, fun h k => ?_, fun h k1 k2 => ?_,
        fun h k1 k2 => ?_, fun h k1 k2 => ?_, fun h k => ?_⟩ <;>
        simp [hstr, hq, hd, containsHK_iff, containsHK_emptyRange,
          KeyRange.emptyRange, rbLT, decide_eq_true_eq, hA, hAr,
          Bool.false_eq_true] <;>
        omega
  · simp only [rbLE, decide_eq_true_eq] at hwr
    have hAr := rbLE_unbounded_left hrA
    refine ⟨fun h k => ?_, fun h k => ?_, fun h k => ?_, fun h k1 k2 => ?_,
      fun h k1 k2 => ?_, fun h k1 k2 => ?_, fun h k => ?_⟩ <;>
      simp [hstr, hq, hd, containsHK_iff, containsHK_emptyRange,
        emptyRegion_contains, KeyRange.emptyRange, rbLT, decide_eq_true_eq,
        hA, hAr, Bool.false_eq_true] <;>
      omega

/-- Claim C3: every state of the three region fields reachable through the
constructor's transitions — the initial state, and the states after each of
the three region transitions performed under the exclusive lock — is a
partition of the assigned region: the three regions are pairwise disjoint,
ordered streaming, queueing, discarding from left to right, and their union
is the assigned region. -/
theorem claim_C3 (A : Region) (hA : A.inner.left = 0) (ph : LoopPhase)
    (st : RegionTriple) (h : Reachable A ph st) : PartitionOK A st := by
  have hsh := reachable_shape A hA ph st h
  cases ph with
  | between => exact shapeBetween_partition A hA st hsh
  | queueing_grown => exact shapeQueueing_partition A hA st hsh
  | backfilled => exact shapeBackfilled_partition A hA st hsh

/-- Claim C3 witness: starting from the initial state over the region with
key range from the minimal key up to 10, one full loop iteration —
begin phase, end phase at right bound 5, promote — reaches a state that the
theorem certifies as a partition. -/
theorem claim_C3_witness :
    (⟨0, 1, ⟨0, RightBound.key 10⟩⟩ : Region).inner.left = 0 ∧
    Reachable ⟨0, 1, ⟨0, RightBound.key 10⟩⟩ LoopPhase.between
      ⟨⟨0, 1, ⟨0, RightBound.key 5⟩⟩, ⟨0, 1, ⟨0, RightBound.key 0⟩⟩,
       ⟨0, 1, ⟨5, RightBound.key 10⟩⟩⟩ ∧
    PartitionOK ⟨0, 1, ⟨0, RightBound.key 10⟩⟩
      ⟨⟨0, 1, ⟨0, RightBound.key 5⟩⟩, ⟨0, 1, ⟨0, RightBound.key 0⟩⟩,
       ⟨0, 1, ⟨5, RightBound.key 10⟩⟩⟩ :=
  have hreach : Reachable ⟨0, 1, ⟨0, RightBound.key 10⟩⟩ LoopPhase.between
      ⟨⟨0, 1, ⟨0, RightBound.key 5⟩⟩, ⟨0, 1, ⟨0, RightBound.key 0⟩⟩,
       ⟨0, 1, ⟨5, RightBound.key 10⟩⟩⟩ :=
    Reachable.promote _
      (Reachable.end_phase _ (RightBound.key 5)
        (Reachable.begin_phase _ Reachable.init (by decide))
        (by decide) (by decide))
  ⟨rfl, hreach, claim_C3 _ rfl _ _ hreach⟩

/-! ## The trickle-ack backpressure machine

Source: the second `queue_fun` installed for the drain phase
(lines 265-277), the per-entry completion callback handed to
`drain_stream_queue` (lines 300-311), and the final flush of `ack_queue`
(lines 316-322).  The fractional accumulator `acks_to_release` (a `double`
in the source) is modelled as a rational. -/

/-- The observable counters of the drain-phase ack machinery: the main
queue length, the number of ack conditions parked in `ack_queue`, the
fractional accumulator, and — for bookkeeping — the total number of acks
pulsed and the number of completed (drained) entries. -/
structure TrickleState where
  queue_len : Nat
  ack_queue : Nat
  acks_to_release : ℚ
  acks_released : Nat
  drained : Nat
  deriving DecidableEq, Repr

/-- The state at the start of the drain phase: `acks_to_release` is zero
and `ack_queue` is empty (lines 267-268). -/
def trickleInit (queue_len : Nat) : TrickleState :=
  ⟨queue_len, 0, 0, 0, 0⟩

/-- The drain-phase queue function (lines 269-277): push the entry; if the
accumulator has reached 1, consume one unit and pulse the ack right away,
otherwise park the ack in `ack_queue`. -/
def trickle_enqueue (s : TrickleState) : TrickleState :=
  if 1 ≤ s.acks_to_release then
    { s with queue_len := s.queue_len + 1,
             acks_to_release := s.acks_to_release - 1,
             acks_released := s.acks_released + 1 }
  else
    { s with queue_len := s.queue_len + 1, ack_queue := s.ack_queue + 1 }

/-- The fill-phase queue function (lines 191-194): push the entry and pulse
the ack immediately. -/
def fill_enqueue (s : TrickleState) : TrickleState :=
  { s with queue_len := s.queue_len + 1, acks_released := s.acks_released + 1 }

/-- Popping one entry off the main queue inside the drain loop
(lines 431-432). -/
def trickle_pop (s : TrickleState) : TrickleState :=
  { s with queue_len := s.queue_len - 1 }

/-- The per-entry completion callback (lines 300-311): credit the
accumulator with the trickle fraction; if it has reached 1 and an ack is
parked, consume one unit and pulse the front of `ack_queue`. -/
def finish_one_entry (f : ℚ) (s : TrickleState) : TrickleState :=
  let s1 := { s with acks_to_release := s.acks_to_release + f,
                     drained := s.drained + 1 }
  if 1 ≤ s1.acks_to_release ∧ s1.ack_queue ≠ 0 then
    { s1 with acks_to_release := s1.acks_to_release - 1,
              acks_released := s1.acks_released + 1,
              ack_queue := s1.ack_queue - 1 }
  else s1

/-- The flush after the drain (lines 319-322): pulse every ack remaining in
`ack_queue`. -/
def flush_ack_queue (s : TrickleState) : TrickleState :=
  { s with acks_released := s.acks_released + s.ack_queue, ack_queue := 0 }

/-- Events interleaved during a drain phase. -/
inductive TrickleEvent where
  | enqueue
  | pop
  | finish
  deriving DecidableEq, Repr

/-- One event step of the drain-phase machinery. -/
def trickleStep (f : ℚ) (s : TrickleState) : TrickleEvent → TrickleState
  | TrickleEvent.enqueue => trickle_enqueue s
  | TrickleEvent.pop => trickle_pop s
  | TrickleEvent.finish => finish_one_entry f s

/-- Run a sequence of drain-phase events. -/
def trickleRun (f : ℚ) (evs : List TrickleEvent) (s : TrickleState) : TrickleState :=
  evs.foldl (trickleStep f) s

/-- The inductive invariant of the accumulator: it equals the trickle
credit earned by drained entries minus the acks released, and it never goes
negative. -/
theorem trickle_invariant (f : ℚ) (hf : 0 < f) (evs : List TrickleEvent)
    (n : Nat) :
    0 ≤ (trickleRun f evs (trickleInit n)).acks_to_release ∧
    (trickleRun f evs (trickleInit n)).acks_to_release =
      (trickleRun f evs (trickleInit n)).drained * f -
        (trickleRun f evs (trickleInit n)).acks_released := by
  suffices h : ∀ s : TrickleState,
      0 ≤ s.acks_to_release →
      s.acks_to_release = s.drained * f - s.acks_released →
      0 ≤ (trickleRun f evs s).acks_to_release ∧
      (trickleRun f evs s).acks_to_release =
        (trickleRun f evs s).drained * f -
          (trickleRun f evs s).acks_released by
    refine h (trickleInit n) le_rfl ?_
    simp [trickleInit]
  induction evs with
  | nil => intro s h0 h1; exact ⟨h0, h1⟩
  | cons ev rest ih =>
    intro s h0 h1
    refine ih (trickleStep f s ev) ?_ ?_
    · cases ev with
      | enqueue =>
        simp only [trickleStep, trickle_enqueue]
        split
        case isTrue h => simp; linarith
        case isFalse h => simpa using h0
      | pop => simpa [trickleStep, trickle_pop] using h0
      | finish =>
        simp only [trickleStep, finish_one_entry]
        split
        case isTrue h => simp; linarith [h.1]
        case isFalse h => simp; linarith
    · cases ev with
      | enqueue =>
        simp only [trickleStep, trickle_enqueue]
        split <;> simp <;> push_cast <;> linarith
      | pop => simpa [trickleStep, trickle_pop] using h1
      | finish =>
        simp only [trickleStep, finish_one_entry]
        split <;> simp <;> push_cast <;> linarith

/-- Claim C4: during a drain phase with trickle fraction `f` in `(0, 1]`,
after any interleaving of enqueues, pops and entry completions, the
accumulator equals the credit earned per completed entry minus the acks
released, never goes negative, and consequently the total number of acks
released is at most `drained * f + 1`. -/
theorem claim_C4 (f : ℚ) (hf1 : 0 < f) (hf2 : f ≤ 1)
    (evs : List TrickleEvent) (n : Nat) :
    0 ≤ (trickleRun f evs (trickleInit n)).acks_to_release ∧
    (trickleRun f evs (trickleInit n)).acks_to_release =
      (trickleRun f evs (trickleInit n)).drained * f -
        (trickleRun f evs (trickleInit n)).acks_released ∧
    ((trickleRun f evs (trickleInit n)).acks_released : ℚ) ≤
      (trickleRun f evs (trickleInit n)).drained * f + 1 := by
  obtain ⟨h0, h1⟩ := trickle_invariant f hf1 evs n
  exact ⟨h0, h1, by linarith⟩

/-- Claim C4 witness: trickle fraction 1/4 and a concrete interleaving of
five completions with two enqueues. -/
theorem claim_C4_witness :
    (0 : ℚ) < 1/4 ∧ (1/4 : ℚ) ≤ 1 ∧
    (0 ≤ (trickleRun (1/4) [TrickleEvent.pop, TrickleEvent.finish,
        TrickleEvent.enqueue, TrickleEvent.pop, TrickleEvent.finish,
        TrickleEvent.finish, TrickleEvent.finish, TrickleEvent.finish]
        (trickleInit 2)).acks_to_release ∧
     (trickleRun (1/4) [TrickleEvent.pop, TrickleEvent.finish,
        TrickleEvent.enqueue, TrickleEvent.pop, TrickleEvent.finish,
        TrickleEvent.finish, TrickleEvent.finish, TrickleEvent.finish]
        (trickleInit 2)).acks_to_release =
       (trickleRun (1/4) [TrickleEvent.pop, TrickleEvent.finish,
        TrickleEvent.enqueue, TrickleEvent.pop, TrickleEvent.finish,
        TrickleEvent.finish, TrickleEvent.finish, TrickleEvent.finish]
        (trickleInit 2)).drained * (1/4) -
         (trickleRun (1/4) [TrickleEvent.pop, TrickleEvent.finish,
        TrickleEvent.enqueue, TrickleEvent.pop, TrickleEvent.finish,
        TrickleEvent.finish, TrickleEvent.finish, TrickleEvent.finish]
        (trickleInit 2)).acks_released ∧
     ((trickleRun (1/4) [TrickleEvent.pop, TrickleEvent.finish,
        TrickleEvent.enqueue, TrickleEvent.pop, TrickleEvent.finish,
        TrickleEvent.finish, TrickleEvent.finish, TrickleEvent.finish]
        (trickleInit 2)).acks_released : ℚ) ≤
       (trickleRun (1/4) [TrickleEvent.pop, TrickleEvent.finish,
        TrickleEvent.enqueue, TrickleEvent.pop, TrickleEvent.finish,
        TrickleEvent.finish, TrickleEvent.finish, TrickleEvent.finish]
        (trickleInit 2)).drained * (1/4) + 1) :=
  ⟨by norm_num, by norm_num,
   claim_C4 (1/4) (by norm_num) (by norm_num)
     [TrickleEvent.pop, TrickleEvent.finish, TrickleEvent.enqueue,
      TrickleEvent.pop, TrickleEvent.finish, TrickleEvent.finish,
      TrickleEvent.finish, TrickleEvent.finish] 2⟩

/-- The end of a drain phase (lines 316-330): first every ack remaining in
`ack_queue` is pulsed, then the queueing region is promoted into the
streaming region. -/
def end_of_drain (s : TrickleState) (rt : RegionTriple) :
    TrickleState × RegionTriple :=
  (flush_ack_queue s,
   ⟨rt.streaming.withInner ⟨rt.streaming.inner.left, rt.queueing.inner.right⟩,
    rt.queueing.withInner KeyRange.emptyRange,
    rt.discarding⟩)

/-- Claim C10: the fill-phase queue function pulses the ack immediately on
enqueue and parks nothing (so the backfill phase applies no backpressure);
the drain-phase queue function, whenever the accumulator is below 1, parks
the ack in `ack_queue` and pulses nothing; and at the end of the drain
every parked ack is pulsed while the queueing region is promoted into
streaming. -/
theorem claim_C10 (s : TrickleState) (rt : RegionTriple)
    (h : s.acks_to_release < 1) :
    (fill_enqueue s).acks_released = s.acks_released + 1 ∧
    (fill_enqueue s).ack_queue = s.ack_queue ∧
    (trickle_enqueue s).acks_released = s.acks_released ∧
    (trickle_enqueue s).ack_queue = s.ack_queue + 1 ∧
    (end_of_drain s rt).1.ack_queue = 0 ∧
    (end_of_drain s rt).1.acks_released = s.acks_released + s.ack_queue ∧
    (end_of_drain s rt).2.streaming.inner.right = rt.queueing.inner.right ∧
    (end_of_drain s rt).2.queueing.inner = KeyRange.emptyRange := by
  refine ⟨rfl, rfl, ?_, ?_, rfl, rfl, rfl, rfl⟩
  · simp only [trickle_enqueue]
    rw [if_neg (not_le.mpr h)]
  · simp only [trickle_enqueue]
    rw [if_neg (not_le.mpr h)]

/-- Claim C10 witness: a concrete mid-drain state with accumulator 1/2 and
two parked acks, and a concrete region triple. -/
theorem claim_C10_witness :
    ((⟨3, 2, 1/2, 4, 5⟩ : TrickleState)).acks_to_release < 1 ∧
    ((fill_enqueue ⟨3, 2, 1/2, 4, 5⟩).acks_released = 5 ∧
     (fill_enqueue ⟨3, 2, 1/2, 4, 5⟩).ack_queue = 2 ∧
     (trickle_enqueue ⟨3, 2, 1/2, 4, 5⟩).acks_released = 4 ∧
     (trickle_enqueue ⟨3, 2, 1/2, 4, 5⟩).ack_queue = 3 ∧
     (end_of_drain ⟨3, 2, 1/2, 4, 5⟩
        ⟨⟨0, 1, ⟨0, RightBound.key 3⟩⟩, ⟨0, 1, ⟨3, RightBound.key 7⟩⟩,
         ⟨0, 1, ⟨7, RightBound.key 9⟩⟩⟩).1.ack_queue = 0 ∧
     (end_of_drain ⟨3, 2, 1/2, 4, 5⟩
        ⟨⟨0, 1, ⟨0, RightBound.key 3⟩⟩, ⟨0, 1, ⟨3, RightBound.key 7⟩⟩,
         ⟨0, 1, ⟨7, RightBound.key 9⟩⟩⟩).1.acks_released = 4 + 2 ∧
     (end_of_drain ⟨3, 2, 1/2, 4, 5⟩
        ⟨⟨0, 1, ⟨0, RightBound.key 3⟩⟩, ⟨0, 1, ⟨3, RightBound.key 7⟩⟩,
         ⟨0, 1, ⟨7, RightBound.key 9⟩⟩⟩).2.streaming.inner.right =
       RightBound.key 7 ∧
     (end_of_drain ⟨3, 2, 1/2, 4, 5⟩
        ⟨⟨0, 1, ⟨0, RightBound.key 3⟩⟩, ⟨0, 1, ⟨3, RightBound.key 7⟩⟩,
         ⟨0, 1, ⟨7, RightBound.key 9⟩⟩⟩).2.queueing.inner =
       KeyRange.emptyRange) :=
  ⟨by norm_num,
   claim_C10 ⟨3, 2, 1/2, 4, 5⟩
     ⟨⟨0, 1, ⟨0, RightBound.key 3⟩⟩, ⟨0, 1, ⟨3, RightBound.key 7⟩⟩,
      ⟨0, 1, ⟨7, RightBound.key 9⟩⟩⟩ (by norm_num)⟩

/-! ## The backfill progress callback

Source: the local `callback_t` (lines 214-240) handed to `backfillee.go`. -/

/-- The recognized tunables (spec section 6; `backfill_config_t` is not
part of the sources under verification, only its two fields used here). -/
structure backfill_config_t where
  write_queue_count : Nat
  write_queue_trickle_fraction : ℚ

/-- The `backfill_end_timestamps_t` constructor (lines 27-36): domain, the
per-range timestamp steps in order, and the last step's timestamp as the
cached maximum. -/
def mk_backfill_end_timestamps (domain : Region) (steps : List (Nat × Nat)) :
    backfill_end_timestamps_t :=
  ⟨domain, (steps.getLastD (0, 0)).2, steps⟩

/-- The mutable state of the progress callback: the right bound reached so
far and the accumulated timestamp map. -/
structure callback_state where
  right_bound : RightBound
  backfill_end_timestamps : backfill_end_timestamps_t

/-- `on_progress` (lines 222-231): advance the right bound to the chunk's
right bound, fold the chunk's timestamp map into the accumulator, and
answer whether the backfill should continue — exactly whether the queue
size read at this moment (after any concurrent stream enqueues) is still
strictly below `write_queue_count`. -/
def on_progress (cfg : backfill_config_t) (cs : callback_state)
    (chunk_domain : Region) (chunk_steps : List (Nat × Nat))
    (queue_size : Nat) : callback_state × Bool :=
  (⟨chunk_domain.inner.right,
    cs.backfill_end_timestamps.combine
      (mk_backfill_end_timestamps chunk_domain chunk_steps)⟩,
   decide (queue_size < cfg.write_queue_count))

/-- Claim C6: the callback keeps the backfill going exactly when the queue
size after enqueueing concurrent stream writes is strictly below the
configured `write_queue_count`; it stops the backfill exactly when the
queue has reached `write_queue_count`. -/
theorem claim_C6 (cfg : backfill_config_t) (cs : callback_state)
    (chunk_domain : Region) (chunk_steps : List (Nat × Nat))
    (queue_size : Nat) :
    ((on_progress cfg cs chunk_domain chunk_steps queue_size).2 = true ↔
      queue_size < cfg.write_queue_count) ∧
    ((on_progress cfg cs chunk_domain chunk_steps queue_size).2 = false ↔
      cfg.write_queue_count ≤ queue_size) := by
  constructor
  · simp [on_progress]
  · simp [on_progress]

/-! ## Order tokens in the drain loop

Source: lines 450-453 ("Acquire a write token here rather than in the
coroutine so that we can be sure the writes will acquire tokens in the
correct order") and the per-queue order checkpoint at line 551. -/

/-- A queue entry as far as ordering is concerned (the write payload plays
no role in token ordering). -/
structure queue_entry_t where
  has_write : Bool
  timestamp : Nat
  order_token : Nat
  deriving DecidableEq, Repr

/-- Store write-token allocation performed in the caller's loop: the `i`-th
popped entry is paired with the `i`-th token counted from the store's
current counter `c`. -/
def drain_allocations : List queue_entry_t → Nat → List (queue_entry_t × Nat)
  | [], _ => []
  | e :: rest, c => (e, c) :: drain_allocations rest (c + 1)

/-- Modelled from the spec: the per-queue order checkpoint
(`queue_order_checkpoint_.check_through`, whose class is not part of the
sources under verification) validates that the order tokens passed through
it form a monotonic sequence, failing otherwise. -/
def check_through_all : Nat → List Nat → Option (List Nat)
  | _, [] => some []
  | last, t :: rest =>
    if last ≤ t then (check_through_all t rest).map (fun l => t :: l)
    else none

/-- Every token allocated by the drain loop is at least the starting
counter. -/
theorem drain_allocations_ge (q : List queue_entry_t) (c : Nat) :
    ∀ p ∈ drain_allocations q c, c ≤ p.2 := by
  induction q generalizing c with
  | nil => intro p hp; simp [drain_allocations] at hp
  | cons e rest ih =>
    intro p hp
    rcases List.mem_cons.mp hp with rfl | hp
    · exact le_rfl
    · have := ih (c + 1) p hp
      omega

/-- A token list that extends a monotone chain passes the order checkpoint
unchanged. -/
theorem check_through_all_of_chain (ts : List Nat) (last : Nat)
    (hch : List.Chain' (fun a b => a ≤ b) (last :: ts)) :
    check_through_all last ts = some ts := by
  induction ts generalizing last with
  | nil => rfl
  | cons t rest ih =>
    have h1 : last ≤ t := (List.chain'_cons.mp hch).1
    have h2 : List.Chain' (fun a b => a ≤ b) (t :: rest) :=
      (List.chain'_cons.mp hch).2
    simp [check_through_all, h1, ih t h2]

/-- Claim C7: write tokens are requested from the store in queue (pop)
order — the drain loop pairs the popped entries, in their original order,
with strictly increasing token values — and the queued entries' order
tokens, which the enforcer admitted as a monotone extension of the stream,
pass the per-queue order checkpoint unchanged. -/
theorem claim_C7 (queue : List queue_entry_t) (c0 : Nat) (t0 : Nat)
    (hmono : List.Chain' (fun a b => a ≤ b)
      (t0 :: queue.map (fun e => e.order_token))) :
    (drain_allocations queue c0).map Prod.fst = queue ∧
    ((drain_allocations queue c0).map Prod.snd).Pairwise (fun a b => a < b) ∧
    check_through_all t0 (queue.map (fun e => e.order_token)) =
      some (queue.map (fun e => e.order_token)) := by
  refine ⟨?_, ?_, check_through_all_of_chain _ t0 hmono⟩
  · clear hmono
    induction queue generalizing c0 with
    | nil => rfl
    | cons e rest ih => simp [drain_allocations, ih]
  · clear hmono
    induction queue generalizing c0 with
    | nil => exact List.Pairwise.nil
    | cons e rest ih =>
      simp only [drain_allocations, List.map_cons, List.pairwise_cons]
      refine ⟨?_, ih (c0 + 1)⟩
      intro t ht
      rcases List.mem_map.mp ht with ⟨p, hp, rfl⟩
      have := drain_allocations_ge rest (c0 + 1) p hp
      omega

/-- Claim C7 witness: three concrete queue entries with monotone order
tokens, drained with store counter starting at 40. -/
theorem claim_C7_witness :
    List.Chain' (fun a b => a ≤ b)
      (99 :: ([⟨true, 5, 100⟩, ⟨true, 6, 101⟩, ⟨false, 7, 101⟩] :
        List queue_entry_t).map (fun e => e.order_token)) ∧
    ((drain_allocations [⟨true, 5, 100⟩, ⟨true, 6, 101⟩, ⟨false, 7, 101⟩] 40).map
        Prod.fst = [⟨true, 5, 100⟩, ⟨true, 6, 101⟩, ⟨false, 7, 101⟩] ∧
     ((drain_allocations [⟨true, 5, 100⟩, ⟨true, 6, 101⟩, ⟨false, 7, 101⟩] 40).map
        Prod.snd).Pairwise (fun a b => a < b) ∧
     check_through_all 99
        (([⟨true, 5, 100⟩, ⟨true, 6, 101⟩, ⟨false, 7, 101⟩] :
          List queue_entry_t).map (fun e => e.order_token)) =
       some (([⟨true, 5, 100⟩, ⟨true, 6, 101⟩, ⟨false, 7, 101⟩] :
          List queue_entry_t).map (fun e => e.order_token))) :=
  have hch : List.Chain' (fun a b => a ≤ b)
      (99 :: ([⟨true, 5, 100⟩, ⟨true, 6, 101⟩, ⟨false, 7, 101⟩] :
        List queue_entry_t).map (fun e => e.order_token)) := by
    simp [List.chain'_cons]
  ⟨hch,
   claim_C7 [⟨true, 5, 100⟩, ⟨true, 6, 101⟩, ⟨false, 7, 101⟩] 40 99 hch⟩

/-! ## Interruption semantics of the drainer tasks

Source: the coroutine spawned per entry (lines 465-490), the join
(line 494) and the final interruption check (lines 498-500).  The comment
at lines 474-477 records that the task keeps going even when the
auto-drainer's drain signal is pulsed; the task body never consults that
signal, and the `catch` around the apply-then-callback sequence swallows an
interruption after skipping the completion callback. -/

/-- The environment one spawned task runs in: whether the local
auto-drainer is being torn down while it runs, and whether the external
interruptor fires during its store apply. -/
structure DrainTaskEnv where
  drain_signal_pulsed : Bool
  interrupted_during_apply : Bool
  deriving DecidableEq, Repr

/-- The observable outcome of one task. -/
structure DrainTaskResult where
  apply_completed : Bool
  callback_ran : Bool
  deriving DecidableEq, Repr

/-- The store apply inside the task: interrupted exactly when the external
interruptor fires during it. -/
def apply_write_step (interrupted : Bool) : Except Unit Unit :=
  if interrupted then Except.error () else Except.ok ()

/-- The task body (lines 473-489): run the apply; on success run the
completion callback; an interruption is caught and ignored, skipping the
callback.  The drain signal is never consulted. -/
def run_drain_task (env : DrainTaskEnv) : DrainTaskResult :=
  match apply_write_step env.interrupted_during_apply with
  | Except.ok _ => ⟨true, true⟩
  | Except.error _ => ⟨false, false⟩

/-- `drain_stream_queue` after its loop (lines 493-500): join every spawned
task, then raise interruption exactly when the interruptor is pulsed. -/
def drain_stream_queue_run (envs : List DrainTaskEnv)
    (interruptor_pulsed : Bool) : List DrainTaskResult × Bool :=
  (envs.map run_drain_task, interruptor_pulsed)

/-- Claim C8: a task's outcome never depends on the auto-drainer's drain
signal (its apply runs to completion whenever the interruptor lets it,
even during teardown); a task interrupted during its apply skips the
completion callback; `drain_stream_queue` joins every spawned task — one
result per popped entry — before returning; and after the join it raises
interruption exactly when the interruptor is pulsed. -/
theorem claim_C8 (envs : List DrainTaskEnv) (p : Bool) :
    (∀ env b, run_drain_task { env with drain_signal_pulsed := b } =
      run_drain_task env) ∧
    (∀ env : DrainTaskEnv, env.interrupted_during_apply = false →
      (run_drain_task env).apply_completed = true ∧
      (run_drain_task env).callback_ran = true) ∧
    (∀ env : DrainTaskEnv, env.interrupted_during_apply = true →
      (run_drain_task env).callback_ran = false) ∧
    (drain_stream_queue_run envs p).1.length = envs.length ∧
    ((drain_stream_queue_run envs p).2 = true ↔ p = true) := by
  refine ⟨?_, ?_, ?_, ?_, Iff.rfl⟩
  · intro env b; rfl
  · intro env h
    simp [run_drain_task, apply_write_step, h]
  · intro env h
    simp [run_drain_task, apply_write_step, h]
  · simp [drain_stream_queue_run]

/-- Claim C8 witness: two concrete tasks — one torn down but not
interrupted, one interrupted — and a pulsed interruptor. -/
theorem claim_C8_witness :
    ((⟨true, false⟩ : DrainTaskEnv).interrupted_during_apply = false) ∧
    ((⟨false, true⟩ : DrainTaskEnv).interrupted_during_apply = true) ∧
    ((run_drain_task ⟨true, false⟩).apply_completed = true ∧
     (run_drain_task ⟨true, false⟩).callback_ran = true) ∧
    (run_drain_task ⟨false, true⟩).callback_ran = false ∧
    (drain_stream_queue_run [⟨true, false⟩, ⟨false, true⟩] true).1.length = 2 ∧
    ((drain_stream_queue_run [⟨true, false⟩, ⟨false, true⟩] true).2 = true ↔
      true = true) :=
  ⟨rfl, rfl,
   (claim_C8 [⟨true, false⟩, ⟨false, true⟩] true).2.1 ⟨true, false⟩ rfl,
   (claim_C8 [⟨true, false⟩, ⟨false, true⟩] true).2.2.1 ⟨false, true⟩ rfl,
   (claim_C8 [⟨true, false⟩, ⟨false, true⟩] true).2.2.2.1,
   (claim_C8 [⟨true, false⟩, ⟨false, true⟩] true).2.2.2.2⟩

/-! ## The wait-for-table-readiness polling loop

Source: `wait_for_table_readiness` in
`clustering/administration/tables/table_status.cc` (lines 150-216).  Each
iteration resolves the table id to names; a resolution failure or the
deleted-database sentinel raises the no-such-table signal, caught by the
surrounding handler which returns `DELETED`.  Otherwise the readiness is
computed (this can be interrupted, which propagates as an exception) and
compared with the requested level: reaching it returns `IMMEDIATE` on the
very first attempt and `WAITED` otherwise; failing it sleeps — the nap can
also be interrupted — with the poll interval doubling up to the cap. -/

/-- The outcome type of `wait_for_table_readiness`. -/
inductive table_wait_result_t where
  | IMMEDIATE
  | WAITED
  | DELETED
  deriving DecidableEq, Repr

/-- What the environment produces during one iteration of the loop: does
the table id resolve, to which database name, does the status computation
get interrupted, which readiness level does it report, and does the
interruptor fire during the subsequent nap. -/
structure WaitAttempt where
  resolves : Bool
  db_name : String
  status_interrupted : Bool
  readiness : Nat
  nap_interrupted : Bool

/-- The polling loop (lines 163-215) evaluated against a finite trace of
per-iteration environment observations; `none` means the trace ran out
with the loop still polling, `some (Except.error ())` that an interruption
escaped as an exception, and `some (Except.ok r)` a normal return. -/
def wait_loop (wait_readiness : Nat) :
    List WaitAttempt → Bool → Nat → Option (Except Unit table_wait_result_t)
  | [], _, _ => none
  | a :: rest, immediate, poll_ms =>
    if a.resolves = false ∨ a.db_name = "__deleted_database__" then
      some (Except.ok table_wait_result_t.DELETED)
    else if a.status_interrupted then some (Except.error ())
    else if wait_readiness ≤ a.readiness then
      some (Except.ok (if immediate then table_wait_result_t.IMMEDIATE
                       else table_wait_result_t.WAITED))
    else if a.nap_interrupted then some (Except.error ())
    else wait_loop wait_readiness rest false (min 10000 (poll_ms * 2))

/-- `wait_for_table_readiness`: the loop starts with `immediate = true` and
the initial poll interval of 50 ms (lines 147, 159-162). -/
def wait_for_table_readiness (wait_readiness : Nat)
    (attempts : List WaitAttempt) : Option (Except Unit table_wait_result_t) :=
  wait_loop wait_readiness attempts true 50

/-- The deletion test of one attempt, exactly as at lines 168-176. -/
def attemptDeleted (a : WaitAttempt) : Prop :=
  a.resolves = false ∨ a.db_name = "__deleted_database__"

/-- If the loop returns `DELETED`, some attempt in the trace observed the
table or its database deleted. -/
theorem wait_loop_deleted_source (w : Nat) (attempts : List WaitAttempt) :
    ∀ imm poll, wait_loop w attempts imm poll =
        some (Except.ok table_wait_result_t.DELETED) →
      ∃ a ∈ attempts, attemptDeleted a := by
  induction attempts with
  | nil => intro imm poll h; simp [wait_loop] at h
  | cons a rest ih =>
    intro imm poll h
    by_cases h1 : a.resolves = false ∨ a.db_name = "__deleted_database__"
    · exact ⟨a, List.mem_cons_self _ _, h1⟩
    · rw [wait_loop, if_neg h1] at h
      by_cases h2 : a.status_interrupted
      · rw [if_pos h2] at h
        simp at h
      · rw [if_neg h2] at h
        by_cases h3 : w ≤ a.readiness
        · rw [if_pos h3] at h
          simp at h
          split at h <;> simp at h
        · rw [if_neg h3] at h
          by_cases h4 : a.nap_interrupted
          · rw [if_pos h4] at h
            simp at h
          · rw [if_neg h4] at h
            obtain ⟨b, hb, hdel⟩ := ih false (min 10000 (poll * 2)) h
            exact ⟨b, List.mem_cons_of_mem _ hb, hdel⟩

/-- Once a nap has happened, the loop can no longer answer `IMMEDIATE`. -/
theorem wait_loop_no_immediate (w : Nat) (attempts : List WaitAttempt) :
    ∀ poll, wait_loop w attempts false poll ≠
      some (Except.ok table_wait_result_t.IMMEDIATE) := by
  induction attempts with
  | nil => intro poll h; simp [wait_loop] at h
  | cons a rest ih =>
    intro poll h
    by_cases h1 : a.resolves = false ∨ a.db_name = "__deleted_database__"
    · rw [wait_loop, if_pos h1] at h
      simp at h
    · rw [wait_loop, if_neg h1] at h
      by_cases h2 : a.status_interrupted
      · rw [if_pos h2] at h; simp at h
      · rw [if_neg h2] at h
        by_cases h3 : w ≤ a.readiness
        · rw [if_pos h3] at h; simp at h
        · rw [if_neg h3] at h
          by_cases h4 : a.nap_interrupted
          · rw [if_pos h4] at h; simp at h
          · rw [if_neg h4] at h
            exact ih (min 10000 (poll * 2)) h

/-- Claim C9: the polling loop returns `DELETED` exactly when an attempt
observes the table unresolvable or its database name equal to the
deleted-database sentinel (first conjunct: such an attempt decides the call
at once; second: a `DELETED` answer can only come from such an attempt);
an interruption — during the status computation or during the nap —
propagates as an exception, never as `DELETED`; and when the computed
readiness reaches the requested level the call answers `IMMEDIATE` on the
very first attempt and `WAITED` once any nap has happened. -/
theorem claim_C9 (w : Nat) (a : WaitAttempt) (rest attempts : List WaitAttempt)
    (imm : Bool) (poll : Nat) :
    (attemptDeleted a →
      wait_loop w (a :: rest) imm poll =
        some (Except.ok table_wait_result_t.DELETED)) ∧
    (wait_loop w attempts imm poll =
        some (Except.ok table_wait_result_t.DELETED) →
      ∃ b ∈ attempts, attemptDeleted b) ∧
    (¬ attemptDeleted a → a.status_interrupted = true →
      wait_loop w (a :: rest) imm poll = some (Except.error ())) ∧
    (¬ attemptDeleted a → a.status_interrupted = false → a.readiness < w →
      a.nap_interrupted = true →
      wait_loop w (a :: rest) imm poll = some (Except.error ())) ∧
    (¬ attemptDeleted a → a.status_interrupted = false → w ≤ a.readiness →
      wait_for_table_readiness w (a :: rest) =
        some (Except.ok table_wait_result_t.IMMEDIATE)) ∧
    (¬ attemptDeleted a → a.status_interrupted = false → w ≤ a.readiness →
      wait_loop w (a :: rest) false poll =
        some (Except.ok table_wait_result_t.WAITED)) ∧
    (wait_loop w attempts false poll ≠
      some (Except.ok table_wait_result_t.IMMEDIATE)) := by
  refine ⟨?_, wait_loop_deleted_source w attempts imm poll, ?_, ?_, ?_, ?_,
    wait_loop_no_immediate w attempts poll⟩
  · intro hdel
    rw [wait_loop, if_pos (show a.resolves = false ∨
      a.db_name = "__deleted_database__" from hdel)]
  · intro hnd hsi
    rw [wait_loop, if_neg (show ¬ (a.resolves = false ∨
      a.db_name = "__deleted_database__") from hnd), hsi, if_pos rfl]
  · intro hnd hsi hr hnap
    rw [wait_loop, if_neg (show ¬ (a.resolves = false ∨
      a.db_name = "__deleted_database__") from hnd), hsi]
    rw [if_neg (by simp : ¬ (false = true))]
    rw [if_neg (by omega : ¬ w ≤ a.readiness), hnap, if_pos rfl]
  · intro hnd hsi hr
    rw [wait_for_table_readiness, wait_loop, if_neg (show ¬ (a.resolves = false ∨
      a.db_name = "__deleted_database__") from hnd), hsi]
    rw [if_neg (by simp : ¬ (false = true))]
    rw [if_pos hr]
    simp
  · intro hnd hsi hr
    rw [wait_loop, if_neg (show ¬ (a.resolves = false ∨
      a.db_name = "__deleted_database__") from hnd), hsi]
    rw [if_neg (by simp : ¬ (false = true))]
    rw [if_pos hr]
    simp

/-- Claim C9 witness: a trace whose first attempt fails to resolve the
table returns `DELETED`; a first attempt that reaches the requested
readiness returns `IMMEDIATE`; the same attempt after a nap returns
`WAITED`. -/
theorem claim_C9_witness :
    attemptDeleted ⟨false, "db", false, 0, false⟩ ∧
    (¬ attemptDeleted ⟨true, "db", false, 5, false⟩) ∧
    wait_loop 2 [⟨false, "db", false, 0, false⟩] true 50 =
      some (Except.ok table_wait_result_t.DELETED) ∧
    wait_for_table_readiness 2 [⟨true, "db", false, 5, false⟩] =
      some (Except.ok table_wait_result_t.IMMEDIATE) ∧
    wait_loop 2 [⟨true, "db", false, 5, false⟩] false 50 =
      some (Except.ok table_wait_result_t.WAITED) :=
  have hnd : ¬ attemptDeleted ⟨true, "db", false, 5, false⟩ := by
    simp [attemptDeleted]
  ⟨Or.inl rfl, hnd,
   (claim_C9 2 ⟨false, "db", false, 0, false⟩ [] [] true 50).1 (Or.inl rfl),
   (claim_C9 2 ⟨true, "db", false, 5, false⟩ [] [] true 50).2.2.2.2.1
     hnd rfl (by decide),
   (claim_C9 2 ⟨true, "db", false, 5, false⟩ [] [] true 50).2.2.2.2.2.1
     hnd rfl (by decide)⟩
